import Mathlib

/-!
Verification of the core configuration-resolution logic of the knip
repository: tag splitting and filtering (src/packages/knip/src/util/tag.ts),
issue-type resolution (src/packages/knip/src/util/get-included-issue-types.ts),
workspace discovery (src/packages/knip/src/util/map-workspaces.ts) and
workspace scope resolution (src/packages/knip/src/ConfigurationChief.ts).

JavaScript strings are embedded as lists of characters (`Str`); JS `Set` and
`Map` are embedded as lists kept duplicate-free by insert-if-absent, which
preserves the insertion order exactly as the JS collections do. Fallible
code (functions that `throw new ConfigurationError(...)`) is embedded as
`Except Str` values.
-/

namespace Knip

/-- JavaScript strings are modelled as lists of characters. -/
abbrev Str := List Char

/-- Turns a Lean string literal into the character-list model. -/
def str (s : String) : Str := s.data

/-- JS `Set.prototype.add`: append the element unless it is already present
(JS sets preserve insertion order). -/
def addSet (x : Str) (xs : List Str) : List Str :=
  if xs.contains x then xs else xs ++ [x]

/-- JS `String.prototype.split` with a single-character separator: splitting
the empty string yields `[""]`, and consecutive separators yield empty
pieces, exactly as in JS. -/
def jsSplit (sep : Char) : Str → List Str
  | [] => [[]]
  | c :: cs =>
    if c = sep then [] :: jsSplit sep cs
    else
      match jsSplit sep cs with
      | t :: ts => (c :: t) :: ts
      | [] => [[c]]

/-! ## src/packages/knip/src/util/tag.ts -/

/-- The character class `[a-zA-Z]` of the regex in `splitTags`. -/
def isAsciiLetter (c : Char) : Bool :=
  ('a' ≤ c && c ≤ 'z') || ('A' ≤ c && c ≤ 'Z')

/-- JS `tag.match(/[a-zA-Z]+/)`, returning `match[0]`: the first maximal run
of ASCII letters in the string, or `none` when the string has no letter. -/
def matchLetters : Str → Option Str
  | [] => none
  | c :: cs =>
    if isAsciiLetter c then some (c :: cs.takeWhile isAsciiLetter)
    else matchLetters cs

/-- JS `tag.startsWith('-')`. -/
def startsWithDash : Str → Bool
  | '-' :: _ => true
  | _ => false

/-- The `Tags` type from src/unnamed/part_000: an ordered pair
`[includeTags, excludeTags]`. -/
abbrev Tags := List Str × List Str

/-- `splitTags` from src/packages/knip/src/util/tag.ts: flat-map each input
over comma-splitting, then reduce: a token contributes its first maximal
ASCII-letter run (if any) to the exclude list when the token starts with
`-` and to the include list otherwise. -/
def splitTags (tags : List Str) : Tags :=
  (tags.flatMap (jsSplit ',')).foldl
    (fun acc tag =>
      match matchLetters tag with
      | some m => if startsWithDash tag then (acc.1, acc.2 ++ [m]) else (acc.1 ++ [m], acc.2)
      | none => acc)
    ([], [])

/-- `hasTag` from src/packages/knip/src/util/tag.ts: some entry of `tags`,
prefixed with `@`, is a member of the symbol's tag set. -/
def hasTag (tags : List Str) (jsDocTags : List Str) : Bool :=
  tags.any (fun tag => jsDocTags.contains ('@' :: tag))

/-- `shouldIgnore` from src/packages/knip/src/util/tag.ts. The `jsDocTags`
set is modelled as a duplicate-irrelevant list (the JS array/Set
re-normalisation at the top of the function is a no-op in this model). -/
def shouldIgnore (jsDocTags : List Str) (tags : Tags) : Bool :=
  if tags.1.length > 0 && !hasTag tags.1 jsDocTags then true
  else if tags.2.length > 0 && hasTag tags.2 jsDocTags then true
  else false

/-! ## src/packages/knip/src/util/get-included-issue-types.ts -/

/-- Modelled from the spec: the fixed issue-type taxonomy `ISSUE_TYPES` from
constants.js, which is not among the repository sources. The members are the
taxonomy names the sources themselves use: the three convenience-flag
bundles in get-included-issue-types.ts enumerate files, dependencies,
unlisted, binaries, unresolved, exports, nsExports, classMembers, types,
nsTypes, enumMembers, duplicates and optionalPeerDependencies, and the
production-mode branch adds devDependencies. -/
def ISSUE_TYPES : List Str :=
  [str "files", str "dependencies", str "devDependencies",
   str "optionalPeerDependencies", str "unlisted", str "binaries",
   str "unresolved", str "exports", str "nsExports", str "classMembers",
   str "types", str "nsTypes", str "enumMembers", str "duplicates"]

/-- `defaultExcludedIssueTypes` from get-included-issue-types.ts. -/
def defaultExcludedIssueTypes : List Str :=
  [str "classMembers", str "nsExports", str "nsTypes"]

/-- `defaultIssueTypes` from get-included-issue-types.ts: the taxonomy minus
the default-excluded types. -/
def defaultIssueTypes : List Str :=
  ISSUE_TYPES.filter (fun t => !defaultExcludedIssueTypes.contains t)

/-- The `CLIArguments` record of get-included-issue-types.ts. `includeArg`
and `excludeArg` stand for the `include` and `exclude` fields (`include` is
a Lean keyword). -/
structure CLIArguments where
  includeArg : List Str
  excludeArg : List Str
  dependencies : Bool
  exports : Bool
  files : Bool

/-- The `Options` record of get-included-issue-types.ts, with the same
renaming of `include`/`exclude` and the defaulted fields made explicit. -/
structure Options where
  isProduction : Bool := false
  includeOpt : List Str := []
  excludeOpt : List Str := []

/-- `normalize` from get-included-issue-types.ts: allow comma-separated
argument values. -/
def normalize (values : List Str) : List Str :=
  values.flatMap (jsSplit ',')

/-- Every requested type name, in the order the validation loop of
`getIncludedIssueTypes` walks them: normalized CLI includes, normalized CLI
excludes, config includes, config excludes. -/
def allRequestedTypes (cliArgs : CLIArguments) (options : Options) : List Str :=
  normalize cliArgs.includeArg ++ normalize cliArgs.excludeArg ++
    options.includeOpt ++ options.excludeOpt

/-- The first requested type name that is not in the taxonomy (the one the
validation loop of `getIncludedIssueTypes` throws on), if any. -/
def firstInvalidType (cliArgs : CLIArguments) (options : Options) : Option Str :=
  (allRequestedTypes cliArgs options).find? (fun t => !ISSUE_TYPES.contains t)

/-- The `_include` list of `getIncludedIssueTypes` before the
`devDependencies` auto-add: normalized CLI includes, extended by the three
convenience-flag bundles, then the config includes that no CLI exclude
overrides. -/
def combinedInclude (cliArgs : CLIArguments) (options : Options) : List Str :=
  let incl := normalize cliArgs.includeArg
  let excl := normalize cliArgs.excludeArg
  let includes := options.includeOpt.filter (fun i => !excl.contains i)
  let incl := if cliArgs.dependencies then
      incl ++ [str "dependencies", str "optionalPeerDependencies", str "unlisted",
               str "binaries", str "unresolved"]
    else incl
  let incl := if cliArgs.exports then
      incl ++ [str "exports", str "nsExports", str "classMembers", str "types",
               str "nsTypes", str "enumMembers", str "duplicates"]
    else incl
  let incl := if cliArgs.files then incl ++ [str "files"] else incl
  incl ++ includes

/-- The `_exclude` list of `getIncludedIssueTypes` before the
production/auto-add step: normalized CLI excludes plus the config excludes
that no CLI include overrides. -/
def combinedExclude (cliArgs : CLIArguments) (options : Options) : List Str :=
  let incl := normalize cliArgs.includeArg
  let excl := normalize cliArgs.excludeArg
  let excludes := options.excludeOpt.filter (fun e => !incl.contains e)
  excl ++ excludes

/-- The final `_include` list of `getIncludedIssueTypes`: outside production
mode, including `dependencies` auto-adds `devDependencies` and
`optionalPeerDependencies`. -/
def expandedInclude (cliArgs : CLIArguments) (options : Options) : List Str :=
  let base := combinedInclude cliArgs options
  if !options.isProduction && base.contains (str "dependencies") then
    base ++ [str "devDependencies", str "optionalPeerDependencies"]
  else base

/-- The final `_exclude` list of `getIncludedIssueTypes`: production mode
unconditionally adds `devDependencies`; otherwise excluding `dependencies`
auto-adds `devDependencies` and `optionalPeerDependencies`. -/
def expandedExclude (cliArgs : CLIArguments) (options : Options) : List Str :=
  let base := combinedExclude cliArgs options
  if options.isProduction then base ++ [str "devDependencies"]
  else if base.contains (str "dependencies") then
    base ++ [str "devDependencies", str "optionalPeerDependencies"]
  else base

/-- The `included` list of `getIncludedIssueTypes`: the explicit include
list when it has a type outside the default-excluded ones, the explicit
list layered with the defaults when it is non-empty but all
default-excluded, the defaults when it is empty — all filtered by the final
exclude list. -/
def includedList (cliArgs : CLIArguments) (options : Options) : List Str :=
  (if (expandedInclude cliArgs options).length > 0 then
     if (expandedInclude cliArgs options).any (fun t => !defaultExcludedIssueTypes.contains t) then
       expandedInclude cliArgs options
     else expandedInclude cliArgs options ++ defaultIssueTypes
   else defaultIssueTypes).filter (fun g => !(expandedExclude cliArgs options).contains g)

/-- `getIncludedIssueTypes` from get-included-issue-types.ts: validation of
every requested type against the taxonomy (a `ConfigurationError` carrying
the offending name), then the complete boolean report over the whole
taxonomy. -/
def getIncludedIssueTypes (cliArgs : CLIArguments) (options : Options) :
    Except Str (List (Str × Bool)) :=
  match firstInvalidType cliArgs options with
  | some t => .error (str "Invalid issue type: " ++ t)
  | none => .ok (ISSUE_TYPES.map (fun g => (g, (includedList cliArgs options).contains g)))

/-! ## src/packages/knip/src/ConfigurationChief.ts — workspace scope -/

/-- `ROOT_WORKSPACE_NAME` from constants.js (not among the repository
sources); the spec calls it "the constant root name" and
ConfigurationChief.ts keys the root package under `'.'`. -/
def ROOT_WORKSPACE_NAME : Str := str "."

/-- Modelled from the spec: `join` from util/path.js (not among the
repository sources), a posix path join. On the inputs this code joins
(`cwd` and a workspace-relative name) it appends one `/`-separated suffix,
and joining the root name `.` yields `cwd` itself. -/
def joinPath (cwd name : Str) : Str :=
  if name = ROOT_WORKSPACE_NAME then cwd else cwd ++ '/' :: name

/-- Modelled from the spec: `relative` from util/path.js (not among the
repository sources). On the directories this code produces (all of the form
`joinPath cwd name`) it strips the `cwd ++ "/"` prefix and maps `cwd`
itself to the empty string. -/
def relativePath (cwd dir : Str) : Str :=
  if dir = cwd then [] else dir.drop (cwd.length + 1)

/-- Modelled from the spec: the `byPathDepth` comparator from
util/workspace.js (not among the repository sources) orders workspace names
by ascending path depth, i.e. by their number of path separators. -/
def byPathDepthLe (a b : Str) : Bool :=
  a.count '/' ≤ b.count '/'

/-- The package graph of util/pkgs-graph.js (not among the repository
sources; the spec describes it as a mapping from package directory to the
set of directories connected to it by dependency edges). It enters
`determineIncludedWorkspaces` as an opaque input, embedded as an
association list from directory to its edge set. -/
abbrev Graph := List (Str × List Str)

/-- JS `graph[dir]`: the first binding of `dir`, or `undefined`. -/
def graphLookup (g : Graph) (dir : Str) : Option (List Str) :=
  (g.find? (fun p => p.1 = dir)).map (fun p => p.2)

/-- The mutable state of the `addDependents` closure in
`determineIncludedWorkspaces`: the shared `seen` set, the
`workspaceDirsWithDependents` set (`result`), and a ghost `trace` recording
every entry of the walk in order (used to state the visits-at-most-once
property; the source has no counterpart, and no branch reads it). -/
structure WalkState where
  seen : List Str
  result : List Str
  trace : List Str
deriving DecidableEq

/-- `addDependents` from `determineIncludedWorkspaces`
(ConfigurationChief.ts): mark the directory seen, return if it has no
edges, record it when an initial workspace sits on one of its edges, and
recurse into each unseen edge target. The JS recursion has no fuel; the
`fuel` argument makes the embedding structurally total, and the scope
resolution below runs it with fuel `graph.length + 1`, which the
fuel-stability theorem shows is past the walk's fixpoint. -/
def addDependents (graph : Graph) (initialWorkspaces : List Str) :
    Nat → Str → WalkState → WalkState
  | 0, _, st => st
  | fuel + 1, dir, st =>
    let st₁ : WalkState :=
      { st with seen := addSet dir st.seen, trace := st.trace ++ [dir] }
    match graphLookup graph dir with
    | none => st₁
    | some dirs =>
      if dirs.isEmpty then st₁
      else
        let st₂ : WalkState :=
          if initialWorkspaces.any (fun d => dirs.contains d) then
            { st₁ with result := addSet dir st₁.result }
          else st₁
        dirs.foldl
          (fun acc d =>
            if acc.seen.contains d then acc
            else addDependents graph initialWorkspaces fuel d acc)
          st₂

/-- The inputs `determineIncludedWorkspaces` reads from the
`ConfigurationChief` instance and from module state: the working directory,
the available workspace names and their directories, the package graph, the
`--workspace` argument, strict mode, and `existsSync` (the file-system
probe, an external collaborator embedded as a predicate). -/
structure ChiefState where
  cwd : Str
  availableWorkspaceNames : List Str
  availableWorkspaceDirs : List Str
  packageGraph : Option Graph
  workspaceArg : Option Str
  isStrict : Bool
  dirExists : Str → Bool

/-- The reducer body `getAncestors(name)` from
`determineIncludedWorkspaces`: collect every other available name that is
the root or a `/`-separated path prefix of `name`. -/
def getAncestorsStep (name : Str) (ancestors : List Str) (ancestorName : Str) :
    List Str :=
  if name = ancestorName then ancestors
  else if ancestorName = ROOT_WORKSPACE_NAME || (ancestorName ++ ['/']).isPrefixOf name then
    ancestors ++ [ancestorName]
  else ancestors

/-- The ancestors of `name` among the available workspace names, as
`determineIncludedWorkspaces` computes them by reduction. -/
def ancestorsOf (availableWorkspaceNames : List Str) (name : Str) : List Str :=
  availableWorkspaceNames.foldl (getAncestorsStep name) []

/-- The `ws` set of `determineIncludedWorkspaces`, before sorting: the
selected workspace alone in strict mode; the selector, its ancestors and
everything the dependents walk collects in normal mode with a selector
(nothing when the package graph is still undefined, as in the source's
`if (graph)` guard); every available workspace name without a selector. -/
def wsNames (st : ChiefState) : List Str :=
  let workspaceNames : List Str :=
    match st.workspaceArg with
    | some w => ancestorsOf st.availableWorkspaceNames w ++ [w]
    | none => st.availableWorkspaceNames
  match st.workspaceArg, st.isStrict with
  | some w, true => addSet w []
  | some _, false =>
    match st.packageGraph with
    | some graph =>
      let initialWorkspaces := workspaceNames.map (joinPath st.cwd)
      let start : WalkState :=
        { seen := [],
          result := initialWorkspaces.foldl (fun acc d => addSet d acc) [],
          trace := [] }
      let final :=
        st.availableWorkspaceDirs.foldl
          (fun acc dir => addDependents graph initialWorkspaces (graph.length + 1) dir acc)
          start
      final.result.foldl
        (fun acc dir =>
          addSet (if relativePath st.cwd dir = [] then ROOT_WORKSPACE_NAME
                  else relativePath st.cwd dir) acc)
        []
    | none => []
  | none, _ => st.availableWorkspaceNames.foldl (fun acc n => addSet n acc) []

/-- The fields of the returned `Workspace` records that the scope claims
refer to; the configuration payload (`config`, `ignoreMembers`,
`manifestPath`, `pkgName`) is attached by machinery outside these claims
and does not affect which workspaces are in scope. -/
structure Workspace where
  name : Str
  ancestors : List Str
deriving DecidableEq

/-- `determineIncludedWorkspaces` from ConfigurationChief.ts: fail when the
selected workspace directory does not exist, otherwise sort the collected
names by ascending path depth and attach each name's ancestor list.
`getIncludedWorkspaces()` returns this list unchanged. -/
def determineIncludedWorkspaces (st : ChiefState) : Except Str (List Workspace) :=
  match st.workspaceArg with
  | some w =>
    if !st.dirExists w then .error (str "Directory does not exist: " ++ w)
    else .ok (((wsNames st).mergeSort byPathDepthLe).map
      (fun name => { name := name, ancestors := ancestorsOf st.availableWorkspaceNames name }))
  | none =>
    .ok (((wsNames st).mergeSort byPathDepthLe).map
      (fun name => { name := name, ancestors := ancestorsOf st.availableWorkspaceNames name }))

/-! ## src/packages/knip/src/util/map-workspaces.ts and the
availableWorkspacePkgNames pipeline of ConfigurationChief.ts -/

/-- The manifest fields this pipeline consumes. -/
structure PackageJson where
  name : Option Str
deriving DecidableEq

/-- The `Package` record of ConfigurationChief.ts. -/
structure Package where
  dir : Str
  name : Str
  pkgName : Option Str
  manifest : PackageJson
deriving DecidableEq

/-- JS `Map.prototype.set`: replace the value in place when the key exists,
append otherwise (JS maps preserve insertion order). -/
def mapSet (k : Str) (v : Package) (m : List (Str × Package)) : List (Str × Package) :=
  if m.any (fun p => p.1 = k) then m.map (fun p => if p.1 = k then (k, v) else p)
  else m ++ [(k, v)]

/-- Modelled from the spec: `getPackageName` from util/package-name.js (not
among the repository sources); per the spec's data model, `pkgName` "is the
manifest's declared name". -/
def getPackageName (manifest : PackageJson) : Option Str :=
  manifest.name

/-- One glob match of `mapWorkspaces` together with the outcome of loading
its package.json: `none` models a `MODULE_NOT_FOUND` failure (the match is
skipped with a debug log), `some` the loaded manifest. The glob engine is
an external collaborator; its globMatches are this embedding's input. -/
structure DiscoveredMatch where
  name : Str
  load : Option PackageJson
deriving DecidableEq

/-- The manifest-loading loop of `mapWorkspaces`
(src/packages/knip/src/util/map-workspaces.ts) over the glob globMatches:
builds `byPkgDir` and `byPkgName`, throwing a `ConfigurationError` when a
loaded manifest has no package name. -/
def mapWorkspacesLoop (cwd : Str) :
    List DiscoveredMatch → List (Str × Package) × List (Str × Package) →
    Except Str (List (Str × Package) × List (Str × Package))
  | [], maps => .ok maps
  | m :: ms, (byPkgDir, byPkgName) =>
    match m.load with
    | none => mapWorkspacesLoop cwd ms (byPkgDir, byPkgName)
    | some manifest =>
      let dir := joinPath cwd m.name
      let pkgName := getPackageName manifest
      let pkg : Package := { dir := dir, name := m.name, pkgName := pkgName, manifest := manifest }
      let byPkgDir := mapSet m.name pkg byPkgDir
      match pkgName with
      | some n => mapWorkspacesLoop cwd ms (byPkgDir, mapSet n pkg byPkgName)
      | none => .error (str "Missing package name in " ++ joinPath dir (str "package.json"))

/-- `mapWorkspaces` from map-workspaces.ts, from the point where the glob
globMatches are known. -/
def mapWorkspaces (cwd : Str) (globMatches : List DiscoveredMatch) :
    Except Str (List (Str × Package) × List (Str × Package)) :=
  mapWorkspacesLoop cwd globMatches ([], [])

/-- `getAvailableWorkspacePkgNames` from ConfigurationChief.ts: walk the
given package names, throwing on one already collected and collecting those
no ignore pattern globMatches. `isMatchIgnored` stands for
`picomatch.isMatch(·, this.ignoredWorkspacePatterns)` (an external
collaborator embedded as a predicate). -/
def getAvailableWorkspacePkgNames (isMatchIgnored : Str → Bool) :
    List Str → List Str → Except Str (List Str)
  | [], names => .ok names
  | p :: ps, names =>
    if names.contains p then .error (str "Duplicate package name: " ++ p)
    else getAvailableWorkspacePkgNames isMatchIgnored ps
      (if !isMatchIgnored p then names ++ [p] else names)

/-- The `setWorkspaces` fragment of ConfigurationChief.ts that feeds
`getAvailableWorkspacePkgNames`: map the discovered workspaces, add the
root package under the manifest's name (or the root constant) to the same
by-package-name map, then collect the available package names from that
map's keys. -/
def availablePkgNamesPipeline (cwd : Str) (rootManifest : PackageJson)
    (globMatches : List DiscoveredMatch) (isMatchIgnored : Str → Bool) :
    Except Str (List Str) := do
  let (_, byPkgName) ← mapWorkspaces cwd globMatches
  let rootPkgName := rootManifest.name.getD ROOT_WORKSPACE_NAME
  let rootPackage : Package :=
    { dir := cwd, name := ROOT_WORKSPACE_NAME, pkgName := some rootPkgName,
      manifest := rootManifest }
  let byPkgName := mapSet rootPkgName rootPackage byPkgName
  getAvailableWorkspacePkgNames isMatchIgnored (byPkgName.map (fun p => p.1)) []

/-- The number of graph keys not yet seen: the measure the dependents
walk's recursion consumes (every recursive call enters an unseen key and
marks it seen). -/
def unseenKeys (graph : Graph) (seen : List Str) : Nat :=
  (((graph.map (fun p => p.1)).dedup).filter (fun k => !seen.contains k)).length

/-- How one walk segment extends a state it started from: `seen` and
`result` only grow, and the trace grows by a duplicate-free extension of
directories that are seen afterwards and were all unseen before. -/
def WalkExt (s t : WalkState) : Prop :=
  s.seen ⊆ t.seen ∧ s.result ⊆ t.result ∧
  ∃ ext, t.trace = s.trace ++ ext ∧ ext.Nodup ∧
    (∀ x ∈ ext, x ∈ t.seen) ∧ (∀ x ∈ ext, x ∉ s.seen)

/-- The weakening of `WalkExt` that also covers a walk entered on an
already-seen directory (the re-entered directory is in the trace extension
although it was already seen). -/
def WalkExtW (s t : WalkState) : Prop :=
  s.seen ⊆ t.seen ∧ s.result ⊆ t.result ∧
  ∃ ext, t.trace = s.trace ++ ext ∧ ext.Nodup ∧ (∀ x ∈ ext, x ∈ t.seen)

/-- A concrete scope-resolution state used to instantiate the normal-mode
scope theorem. -/
def sampleChiefState : ChiefState :=
  { cwd := str "/repo",
    availableWorkspaceNames := [str ".", str "packages/a"],
    availableWorkspaceDirs := [str "/repo", str "/repo/packages/a"],
    packageGraph := some [],
    workspaceArg := some (str "packages/a"),
    isStrict := false,
    dirExists := fun _ => true }

/-- A concrete scope-resolution state used to instantiate the strict-mode
scope theorem. -/
def sampleChiefStateStrict : ChiefState :=
  { sampleChiefState with isStrict := true }

/-! ## Tag claims -/

theorem splitTags_foldl_eq (toks : List Str) (i e : List Str) :
    toks.foldl
      (fun acc tag =>
        match matchLetters tag with
        | some m => if startsWithDash tag then (acc.1, acc.2 ++ [m]) else (acc.1 ++ [m], acc.2)
        | none => acc)
      (i, e) =
    (i ++ toks.filterMap (fun t => if startsWithDash t then none else matchLetters t),
     e ++ toks.filterMap (fun t => if startsWithDash t then matchLetters t else none)) := by
  induction toks generalizing i e with
  | nil => simp
  | cons t ts ih =>
    simp only [List.foldl_cons, List.filterMap_cons]
    cases hm : matchLetters t with
    | none => simpa [hm] using ih i e
    | some m =>
      cases hd : startsWithDash t with
      | false => simpa [hm, hd] using ih (i ++ [m]) e
      | true => simpa [hm, hd] using ih i (e ++ [m])

theorem splitTags_eq (ts : List Str) :
    splitTags ts =
      ((ts.flatMap (jsSplit ',')).filterMap
         (fun t => if startsWithDash t then none else matchLetters t),
       (ts.flatMap (jsSplit ',')).filterMap
         (fun t => if startsWithDash t then matchLetters t else none)) := by
  simpa using splitTags_foldl_eq (ts.flatMap (jsSplit ',')) [] []

/-- C9: splitTags splits each input string on commas; a token that starts
with the negation marker `-` routes (its first letter run) to the exclude
list and any other token routes to the include list, in order; in
particular splitTags(["a,-b","c"]) = (include ["a","c"], exclude ["b"]). -/
theorem splitTags_routes_tokens :
    (∀ ts : List Str,
      splitTags ts =
        ((ts.flatMap (jsSplit ',')).filterMap
           (fun t => if startsWithDash t then none else matchLetters t),
         (ts.flatMap (jsSplit ',')).filterMap
           (fun t => if startsWithDash t then matchLetters t else none))) ∧
    splitTags [str "a,-b", str "c"] = ([str "a", str "c"], [str "b"]) :=
  ⟨splitTags_eq, by decide⟩

theorem mem_of_mem_jsSplit {sep : Char} {t p : Str} {c : Char}
    (hp : p ∈ jsSplit sep t) (hc : c ∈ p) : c ∈ t := by
  induction t generalizing p with
  | nil =>
    simp only [jsSplit, List.mem_singleton] at hp
    subst hp
    exact absurd hc (List.not_mem_nil c)
  | cons d t ih =>
    simp only [jsSplit] at hp
    by_cases hd : d = sep
    · rw [if_pos hd] at hp
      rcases List.mem_cons.mp hp with h | h
      · subst h
        exact absurd hc (List.not_mem_nil c)
      · exact List.mem_cons_of_mem _ (ih h hc)
    · rw [if_neg hd] at hp
      rcases hsplit : jsSplit sep t with _ | ⟨u, us⟩
      · rw [hsplit] at hp
        simp only [List.mem_singleton] at hp
        subst hp
        simp only [List.mem_singleton] at hc
        subst hc
        exact List.mem_cons_self c t
      · rw [hsplit] at hp
        rcases List.mem_cons.mp hp with h | h
        · subst h
          rcases List.mem_cons.mp hc with h' | h'
          · subst h'
            exact List.mem_cons_self c t
          · refine List.mem_cons_of_mem _ (ih ?_ h')
            rw [hsplit]
            exact List.mem_cons_self u us
        · exact List.mem_cons_of_mem _ (ih (by rw [hsplit]; exact List.mem_cons_of_mem _ h) hc)

theorem matchLetters_eq_none_iff {t : Str} :
    matchLetters t = none ↔ ∀ c ∈ t, isAsciiLetter c = false := by
  induction t with
  | nil => simp [matchLetters]
  | cons c cs ih =>
    by_cases hc : isAsciiLetter c = true
    · simp [matchLetters, hc]
    · simp only [Bool.not_eq_true] at hc
      simp [matchLetters, hc, ih]

/-- C10: each comma-separated token contributes at most its first maximal
run of ASCII letters (v2beta contributes v, foo-bar contributes foo), every
contributed entry is such a first letter run of some token, and an input
whose characters include no letter at all (such as 123, -, or the empty
string) contributes nothing to either list. -/
theorem splitTags_letter_runs :
    splitTags [str "v2beta"] = ([str "v"], []) ∧
    splitTags [str "foo-bar"] = ([str "foo"], []) ∧
    splitTags [str "123", str "-", str ""] = ([], []) ∧
    (∀ (ts : List Str) (s : Str),
      s ∈ (splitTags ts).1 ∨ s ∈ (splitTags ts).2 →
      ∃ t ∈ ts.flatMap (jsSplit ','), matchLetters t = some s) ∧
    (∀ (ts : List Str) (t : Str), matchLetters t = none →
      splitTags (ts ++ [t]) = splitTags ts) := by
  refine ⟨by decide, by decide, by decide, ?_, ?_⟩
  · intro ts s hs
    rw [splitTags_eq] at hs
    rcases hs with hs | hs
    · simp only [List.mem_filterMap] at hs
      obtain ⟨t, ht, hval⟩ := hs
      refine ⟨t, ht, ?_⟩
      by_cases hd : startsWithDash t = true
      · rw [if_pos hd] at hval
        exact absurd hval (by simp)
      · rw [if_neg hd] at hval
        exact hval
    · simp only [List.mem_filterMap] at hs
      obtain ⟨t, ht, hval⟩ := hs
      refine ⟨t, ht, ?_⟩
      by_cases hd : startsWithDash t = true
      · rw [if_pos hd] at hval
        exact hval
      · rw [if_neg hd] at hval
        exact absurd hval (by simp)
  · intro ts t ht
    have hnone : ∀ p ∈ jsSplit ',' t, matchLetters p = none := by
      intro p hp
      rw [matchLetters_eq_none_iff]
      intro c hc
      exact matchLetters_eq_none_iff.mp ht c (mem_of_mem_jsSplit hp hc)
    rw [splitTags_eq, splitTags_eq]
    have hsplit : (ts ++ [t]).flatMap (jsSplit ',') =
        ts.flatMap (jsSplit ',') ++ jsSplit ',' t := by
      simp [List.flatMap_append]
    rw [hsplit, List.filterMap_append, List.filterMap_append]
    have e1 : (jsSplit ',' t).filterMap
        (fun p => if startsWithDash p then none else matchLetters p) = [] := by
      rw [List.filterMap_eq_nil_iff]
      intro p hp
      simp [hnone p hp]
    have e2 : (jsSplit ',' t).filterMap
        (fun p => if startsWithDash p then matchLetters p else none) = [] := by
      rw [List.filterMap_eq_nil_iff]
      intro p hp
      simp [hnone p hp]
    rw [e1, e2, List.append_nil, List.append_nil]

/-- C7: shouldIgnore is true exactly when the include list is non-empty and
no entry of it, prefixed with @, is among the symbol's tags, or when the
exclude list is non-empty and some entry, prefixed with @, is among them;
with both lists empty it is always false. -/
theorem shouldIgnore_iff :
    (∀ (jsDocTags incl excl : List Str),
      shouldIgnore jsDocTags (incl, excl) = true ↔
        ((incl ≠ [] ∧ ∀ t ∈ incl, ('@' :: t) ∉ jsDocTags) ∨
         (excl ≠ [] ∧ ∃ t ∈ excl, ('@' :: t) ∈ jsDocTags))) ∧
    (∀ jsDocTags : List Str, shouldIgnore jsDocTags ([], []) = false) := by
  refine ⟨fun jsDocTags incl excl => ?_, fun jsDocTags => rfl⟩
  simp only [shouldIgnore, hasTag]
  split_ifs with h1 h2
  · simp only [Bool.and_eq_true, Bool.not_eq_true', List.any_eq_false, gt_iff_lt,
      List.length_pos, List.elem_eq_mem, decide_eq_true_eq, decide_eq_false_iff_not] at h1
    simp only [true_iff]
    exact Or.inl ⟨h1.1, h1.2⟩
  · simp only [Bool.and_eq_true, List.any_eq_true, gt_iff_lt, List.length_pos,
      List.elem_eq_mem, decide_eq_true_eq] at h2
    simp only [true_iff]
    exact Or.inr ⟨h2.1, h2.2⟩
  · simp only [Bool.and_eq_true, Bool.not_eq_true', List.any_eq_false, List.any_eq_true,
      gt_iff_lt, List.length_pos, List.elem_eq_mem, decide_eq_true_eq,
      decide_eq_false_iff_not, not_and, not_forall] at h1 h2
    simp only [false_iff, not_or, not_and]
    constructor
    · intro hne
      obtain ⟨t, ht, hmem⟩ := h1 hne
      intro hall
      exact (hall t ht) (not_not.mp hmem)
    · intro hne
      intro hex
      obtain ⟨t, ht, hmem⟩ := hex
      exact (h2 hne) ⟨t, ht, hmem⟩

/-! ## Issue-type claims -/

theorem getIncludedIssueTypes_ok {cliArgs : CLIArguments} {options : Options}
    {r : List (Str × Bool)} (h : getIncludedIssueTypes cliArgs options = .ok r) :
    r = ISSUE_TYPES.map (fun g => (g, (includedList cliArgs options).contains g)) := by
  unfold getIncludedIssueTypes at h
  cases hf : firstInvalidType cliArgs options with
  | some t =>
    rw [hf] at h
    cases h
  | none =>
    rw [hf] at h
    injection h with h
    exact h.symm

theorem lookup_report (l : List Str) (t : Str) :
    ∀ keys : List Str, t ∈ keys →
      (keys.map (fun g => (g, l.contains g))).lookup t = some (l.contains t) := by
  intro keys
  induction keys with
  | nil => intro ht; exact absurd ht (List.not_mem_nil t)
  | cons k ks ih =>
    intro ht
    simp only [List.map_cons, List.lookup_cons]
    by_cases hk : t = k
    · subst hk
      simp
    · have hbeq : (t == k) = false := beq_eq_false_iff_ne.mpr hk
      simp only [hbeq]
      exact ih (by
        rcases List.mem_cons.mp ht with h | h
        · exact absurd h hk
        · exact h)

theorem mem_includedList {cliArgs : CLIArguments} {options : Options} {t : Str}
    (hmem : t ∈ expandedInclude cliArgs options)
    (hsome : ∃ u ∈ expandedInclude cliArgs options, u ∉ defaultExcludedIssueTypes)
    (hexc : t ∉ expandedExclude cliArgs options) :
    t ∈ includedList cliArgs options := by
  unfold includedList
  obtain ⟨u, hu, hu'⟩ := hsome
  rw [if_pos, if_pos]
  · refine List.mem_filter.mpr ⟨hmem, ?_⟩
    simp [List.elem_eq_mem, hexc]
  · rw [List.any_eq_true]
    exact ⟨u, hu, by simp [List.elem_eq_mem, hu']⟩
  · simp only [gt_iff_lt, List.length_pos]
    exact List.ne_nil_of_mem hmem

theorem not_mem_includedList {cliArgs : CLIArguments} {options : Options} {t : Str}
    (hexc : t ∈ expandedExclude cliArgs options) :
    t ∉ includedList cliArgs options := by
  unfold includedList
  intro hmem
  have := (List.mem_filter.mp hmem).2
  simp [List.elem_eq_mem, hexc] at this

theorem expandedInclude_of_deps {cliArgs : CLIArguments} {options : Options}
    (hprod : options.isProduction = false)
    (hdep : str "dependencies" ∈ combinedInclude cliArgs options) :
    expandedInclude cliArgs options =
      combinedInclude cliArgs options ++
        [str "devDependencies", str "optionalPeerDependencies"] := by
  unfold expandedInclude
  rw [if_pos]
  simp [hprod, List.elem_eq_mem, hdep]

theorem expandedExclude_of_deps {cliArgs : CLIArguments} {options : Options}
    (hprod : options.isProduction = false)
    (hdep : str "dependencies" ∈ combinedExclude cliArgs options) :
    expandedExclude cliArgs options =
      combinedExclude cliArgs options ++
        [str "devDependencies", str "optionalPeerDependencies"] := by
  unfold expandedExclude
  rw [hprod]
  simp only [Bool.false_eq_true, if_false]
  rw [if_pos]
  simp [List.elem_eq_mem, hdep]

/-- C3 (amended): with production off, an include list containing
dependencies auto-adds devDependencies and optionalPeerDependencies, and
the returned map has each of them true unless it is in the final exclude
list; an exclude list containing dependencies excludes both; with
production on, devDependencies is false regardless of any include list. -/
theorem deps_coupling :
    (∀ (cliArgs : CLIArguments) (options : Options) (r : List (Str × Bool)),
      getIncludedIssueTypes cliArgs options = .ok r →
      options.isProduction = false →
      str "dependencies" ∈ combinedInclude cliArgs options →
        str "devDependencies" ∈ expandedInclude cliArgs options ∧
        str "optionalPeerDependencies" ∈ expandedInclude cliArgs options ∧
        (str "devDependencies" ∉ expandedExclude cliArgs options →
          r.lookup (str "devDependencies") = some true) ∧
        (str "optionalPeerDependencies" ∉ expandedExclude cliArgs options →
          r.lookup (str "optionalPeerDependencies") = some true)) ∧
    (∀ (cliArgs : CLIArguments) (options : Options) (r : List (Str × Bool)),
      getIncludedIssueTypes cliArgs options = .ok r →
      options.isProduction = false →
      str "dependencies" ∈ combinedExclude cliArgs options →
        r.lookup (str "devDependencies") = some false ∧
        r.lookup (str "optionalPeerDependencies") = some false) ∧
    (∀ (cliArgs : CLIArguments) (options : Options) (r : List (Str × Bool)),
      getIncludedIssueTypes cliArgs options = .ok r →
      options.isProduction = true →
        r.lookup (str "devDependencies") = some false) := by
  refine ⟨?_, ?_, ?_⟩
  · intro cliArgs options r hok hprod hdep
    have hexp := expandedInclude_of_deps hprod hdep
    have hdev : str "devDependencies" ∈ expandedInclude cliArgs options := by
      rw [hexp]; simp
    have hopd : str "optionalPeerDependencies" ∈ expandedInclude cliArgs options := by
      rw [hexp]; simp
    have hdep' : str "dependencies" ∈ expandedInclude cliArgs options := by
      rw [hexp]; exact List.mem_append_left _ hdep
    have hnd : ∃ u ∈ expandedInclude cliArgs options, u ∉ defaultExcludedIssueTypes :=
      ⟨str "dependencies", hdep', by decide⟩
    refine ⟨hdev, hopd, ?_, ?_⟩
    · intro hne
      rw [getIncludedIssueTypes_ok hok,
        lookup_report (includedList cliArgs options) _ ISSUE_TYPES (by decide)]
      have : str "devDependencies" ∈ includedList cliArgs options :=
        mem_includedList hdev hnd hne
      simp [List.elem_eq_mem, this]
    · intro hne
      rw [getIncludedIssueTypes_ok hok,
        lookup_report (includedList cliArgs options) _ ISSUE_TYPES (by decide)]
      have : str "optionalPeerDependencies" ∈ includedList cliArgs options :=
        mem_includedList hopd hnd hne
      simp [List.elem_eq_mem, this]
  · intro cliArgs options r hok hprod hdep
    have hexp := expandedExclude_of_deps hprod hdep
    have hdev : str "devDependencies" ∈ expandedExclude cliArgs options := by
      rw [hexp]; simp
    have hopd : str "optionalPeerDependencies" ∈ expandedExclude cliArgs options := by
      rw [hexp]; simp
    constructor
    · rw [getIncludedIssueTypes_ok hok,
        lookup_report (includedList cliArgs options) _ ISSUE_TYPES (by decide)]
      have := not_mem_includedList hdev
      simp [List.elem_eq_mem, this]
    · rw [getIncludedIssueTypes_ok hok,
        lookup_report (includedList cliArgs options) _ ISSUE_TYPES (by decide)]
      have := not_mem_includedList hopd
      simp [List.elem_eq_mem, this]
  · intro cliArgs options r hok hprod
    have hdev : str "devDependencies" ∈ expandedExclude cliArgs options := by
      unfold expandedExclude
      rw [hprod]
      simp
    rw [getIncludedIssueTypes_ok hok,
      lookup_report (includedList cliArgs options) _ ISSUE_TYPES (by decide)]
    have := not_mem_includedList hdev
    simp [List.elem_eq_mem, this]

/-- C3 counterexample: with include = [dependencies] and exclude =
[devDependencies] (production off), the include set contains dependencies
and isProduction is false, yet the returned map has devDependencies =
false — the claimed unconditional devDependencies = true fails. -/
theorem deps_coupling_counterexample :
    getIncludedIssueTypes
        ⟨[str "dependencies"], [str "devDependencies"], false, false, false⟩ {} =
      .ok (ISSUE_TYPES.map (fun g =>
        (g, ([str "dependencies", str "optionalPeerDependencies"] : List Str).contains g))) ∧
    str "dependencies" ∈
      combinedInclude ⟨[str "dependencies"], [str "devDependencies"], false, false, false⟩ {} ∧
    ({} : Options).isProduction = false ∧
    (ISSUE_TYPES.map (fun g =>
        (g, ([str "dependencies", str "optionalPeerDependencies"] : List Str).contains g))).lookup
      (str "devDependencies") = some false :=
  ⟨rfl, by decide, rfl, by decide⟩

/-- C5 (amended): when the final include list is empty the default
issue-type set (the taxonomy minus classMembers, nsExports, nsTypes) is
used, subject to the exclude filter; when it is non-empty and every entry
is a normally-excluded category, the full default set is layered in
alongside the requested categories; when any entry is outside the
normally-excluded categories, only the requested categories are used (the
default set is not layered in); and the returned map marks exactly the
resulting list true over the whole taxonomy. -/
theorem default_issue_set :
    (∀ (cliArgs : CLIArguments) (options : Options),
      expandedInclude cliArgs options = [] →
        includedList cliArgs options =
          defaultIssueTypes.filter (fun g => !(expandedExclude cliArgs options).contains g)) ∧
    (∀ (cliArgs : CLIArguments) (options : Options),
      expandedInclude cliArgs options ≠ [] →
      (∀ t ∈ expandedInclude cliArgs options, t ∈ defaultExcludedIssueTypes) →
        includedList cliArgs options =
          (expandedInclude cliArgs options ++ defaultIssueTypes).filter
            (fun g => !(expandedExclude cliArgs options).contains g)) ∧
    (∀ (cliArgs : CLIArguments) (options : Options),
      (∃ t ∈ expandedInclude cliArgs options, t ∉ defaultExcludedIssueTypes) →
        includedList cliArgs options =
          (expandedInclude cliArgs options).filter
            (fun g => !(expandedExclude cliArgs options).contains g)) ∧
    (∀ (cliArgs : CLIArguments) (options : Options) (r : List (Str × Bool)),
      getIncludedIssueTypes cliArgs options = .ok r →
        r = ISSUE_TYPES.map (fun g => (g, (includedList cliArgs options).contains g))) := by
  refine ⟨?_, ?_, ?_, fun _ _ _ h => getIncludedIssueTypes_ok h⟩
  · intro cliArgs options h
    unfold includedList
    rw [h]
    simp
  · intro cliArgs options hne hall
    have hlen : (expandedInclude cliArgs options).length > 0 := by
      simpa [List.length_pos] using hne
    have hany : ((expandedInclude cliArgs options).any
        (fun t => !defaultExcludedIssueTypes.contains t)) = false := by
      rw [List.any_eq_false]
      intro t ht
      simp [List.elem_eq_mem, hall t ht]
    unfold includedList
    rw [if_pos hlen, hany]
    simp
  · intro cliArgs options h
    obtain ⟨t, ht, ht'⟩ := h
    have hlen : (expandedInclude cliArgs options).length > 0 := by
      simpa [List.length_pos] using List.ne_nil_of_mem ht
    have hany : ((expandedInclude cliArgs options).any
        (fun t => !defaultExcludedIssueTypes.contains t)) = true := by
      rw [List.any_eq_true]
      exact ⟨t, ht, by simp [List.elem_eq_mem, ht']⟩
    unfold includedList
    rw [if_pos hlen, if_pos hany]

/-- C5 counterexample: asking for classMembers (a normally-excluded
category) together with files does not layer the default set in — the
default member dependencies comes out false in the returned map. -/
theorem default_issue_set_counterexample :
    getIncludedIssueTypes
        ⟨[str "classMembers", str "files"], [], false, false, false⟩ {} =
      .ok (ISSUE_TYPES.map (fun g =>
        (g, ([str "classMembers", str "files"] : List Str).contains g))) ∧
    str "classMembers" ∈
      allRequestedTypes ⟨[str "classMembers", str "files"], [], false, false, false⟩ {} ∧
    str "classMembers" ∈ defaultExcludedIssueTypes ∧
    str "dependencies" ∈ defaultIssueTypes ∧
    (ISSUE_TYPES.map (fun g =>
        (g, ([str "classMembers", str "files"] : List Str).contains g))).lookup
      (str "dependencies") = some false :=
  ⟨rfl, by decide, by decide, by decide, by decide⟩

/-- C8: whenever some requested token (CLI include/exclude after comma
splitting, or config include/exclude) is outside the taxonomy,
getIncludedIssueTypes fails with a configuration error naming an invalid
token, and no issue map is produced. -/
theorem invalid_issue_type_rejected (cliArgs : CLIArguments) (options : Options)
    (h : ∃ t ∈ allRequestedTypes cliArgs options, t ∉ ISSUE_TYPES) :
    ∃ t, t ∈ allRequestedTypes cliArgs options ∧ t ∉ ISSUE_TYPES ∧
      getIncludedIssueTypes cliArgs options =
        .error (str "Invalid issue type: " ++ t) := by
  obtain ⟨t, ht, hnot⟩ := h
  have hsome : (firstInvalidType cliArgs options).isSome = true := by
    unfold firstInvalidType
    rw [List.find?_isSome]
    exact ⟨t, ht, by simp [List.elem_eq_mem, hnot]⟩
  obtain ⟨t₀, ht₀⟩ := Option.isSome_iff_exists.mp hsome
  refine ⟨t₀, ?_, ?_, ?_⟩
  · exact List.mem_of_find?_eq_some ht₀
  · have := List.find?_some ht₀
    simpa [List.elem_eq_mem] using this
  · unfold getIncludedIssueTypes
    rw [ht₀]

theorem invalid_issue_type_rejected_witness :
    ∃ t, t ∈ allRequestedTypes ⟨[str "bogus"], [], false, false, false⟩ {} ∧
      t ∉ ISSUE_TYPES ∧
      getIncludedIssueTypes ⟨[str "bogus"], [], false, false, false⟩ {} =
        .error (str "Invalid issue type: " ++ t) :=
  invalid_issue_type_rejected ⟨[str "bogus"], [], false, false, false⟩ {}
    ⟨str "bogus", by decide, by decide⟩

/-! ## Duplicate package name (C4) -/

/-- C4: evaluation of the discovery pipeline at two distinct workspace
directories declaring the same package name foo. `mapWorkspaces` keys
`byPkgName` by package name, so the second discovery silently overwrites
the first, and `getAvailableWorkspacePkgNames` — which receives that map's
(necessarily distinct) keys — resolves without raising the duplicate
package name error the spec requires. -/
theorem duplicate_pkg_name_not_detected :
    availablePkgNamesPipeline (str "/repo") ⟨some (str "root")⟩
        [⟨str "packages/a", some ⟨some (str "foo")⟩⟩,
         ⟨str "packages/b", some ⟨some (str "foo")⟩⟩]
        (fun _ => false) =
      .ok [str "foo", str "root"] ∧
    (str "packages/a" : Str) ≠ str "packages/b" :=
  ⟨rfl, by decide⟩

/-! ## Workspace scope claims: basic set/fold lemmas -/

theorem mem_addSet {x y : Str} {xs : List Str} :
    x ∈ addSet y xs ↔ x = y ∨ x ∈ xs := by
  unfold addSet
  by_cases h : xs.contains y = true
  · have hy : y ∈ xs := by simpa [List.elem_eq_mem] using h
    rw [if_pos h]
    constructor
    · exact Or.inr
    · rintro (rfl | hx)
      · exact hy
      · exact hx
  · rw [if_neg h]
    simp [or_comm]

theorem subset_addSet (y : Str) (xs : List Str) : xs ⊆ addSet y xs := by
  intro x hx
  exact mem_addSet.mpr (Or.inr hx)

theorem mem_foldl_addSet {x : Str} (l : List Str) (init : List Str) :
    x ∈ l.foldl (fun acc d => addSet d acc) init ↔ x ∈ init ∨ x ∈ l := by
  induction l generalizing init with
  | nil => simp
  | cons d ds ih =>
    rw [List.foldl_cons, ih]
    rw [mem_addSet]
    simp only [List.mem_cons]
    tauto

theorem relativePath_joinPath (cwd name : Str) :
    relativePath cwd (joinPath cwd name) =
      if name = ROOT_WORKSPACE_NAME then [] else name := by
  unfold joinPath relativePath
  by_cases h : name = ROOT_WORKSPACE_NAME
  · simp [h]
  · rw [if_neg h, if_neg h, if_neg]
    · have : cwd ++ '/' :: name = (cwd ++ ['/']) ++ name := by simp
      rw [this]
      have hlen : cwd.length + 1 = (cwd ++ ['/']).length := by simp
      rw [hlen, List.drop_left]
    · intro hcontra
      have := congrArg List.length hcontra
      simp at this

theorem wsName_of (cwd a : Str) (ha : a ≠ []) :
    (if relativePath cwd (joinPath cwd a) = [] then ROOT_WORKSPACE_NAME
     else relativePath cwd (joinPath cwd a)) = a := by
  rw [relativePath_joinPath]
  by_cases h : a = ROOT_WORKSPACE_NAME
  · simp [h]
  · rw [if_neg h, if_neg ha]

/-! ## Walk lemmas -/

theorem walkExt_refl (s : WalkState) : WalkExt s s :=
  ⟨List.Subset.refl _, List.Subset.refl _, [], by simp, List.nodup_nil, by simp, by simp⟩

theorem walkExt_trans {s t u : WalkState} (h1 : WalkExt s t) (h2 : WalkExt t u) :
    WalkExt s u := by
  obtain ⟨hs1, hr1, e1, ht1, hn1, hm1, hf1⟩ := h1
  obtain ⟨hs2, hr2, e2, ht2, hn2, hm2, hf2⟩ := h2
  refine ⟨hs1.trans hs2, hr1.trans hr2, e1 ++ e2, ?_, ?_, ?_, ?_⟩
  · rw [ht2, ht1, List.append_assoc]
  · rw [List.nodup_append]
    refine ⟨hn1, hn2, ?_⟩
    intro x hx1 hx2
    exact hf2 x hx2 (hm1 x hx1)
  · intro x hx
    rcases List.mem_append.mp hx with h | h
    · exact hs2 (hm1 x h)
    · exact hm2 x h
  · intro x hx
    rcases List.mem_append.mp hx with h | h
    · exact hf1 x h
    · intro hmem
      exact hf2 x h (hs1 hmem)

theorem walkExt_toW {s t : WalkState} (h : WalkExt s t) : WalkExtW s t := by
  obtain ⟨hs, hr, e, ht, hn, hm, _⟩ := h
  exact ⟨hs, hr, e, ht, hn, hm⟩

theorem addDependents_zero (graph : Graph) (init : List Str) (dir : Str) (st : WalkState) :
    addDependents graph init 0 dir st = st := rfl

theorem addDependents_no_edges {graph : Graph} (init : List Str) (fuel : Nat)
    {dir : Str} (st : WalkState)
    (h : graphLookup graph dir = none ∨ graphLookup graph dir = some []) :
    addDependents graph init (fuel + 1) dir st =
      { st with seen := addSet dir st.seen, trace := st.trace ++ [dir] } := by
  rcases h with h | h
  · simp only [addDependents, h]
  · simp only [addDependents, h, List.isEmpty_nil, if_true]

theorem addDependents_edges {graph : Graph} (init : List Str) (fuel : Nat)
    {dir : Str} (st : WalkState) {dirs : List Str}
    (h : graphLookup graph dir = some dirs) (hne : dirs.isEmpty = false) :
    addDependents graph init (fuel + 1) dir st =
      dirs.foldl
        (fun acc d =>
          if acc.seen.contains d then acc
          else addDependents graph init fuel d acc)
        (if init.any (fun d => dirs.contains d) then
          { st with seen := addSet dir st.seen, trace := st.trace ++ [dir],
                    result := addSet dir st.result }
         else { st with seen := addSet dir st.seen, trace := st.trace ++ [dir] }) := by
  simp only [addDependents, h, hne, Bool.false_eq_true, if_false]

theorem foldl_walkExt (graph : Graph) (init : List Str) (fuel : Nat)
    (hU : ∀ (d : Str) (A : WalkState), d ∉ A.seen →
      WalkExt A (addDependents graph init fuel d A)) :
    ∀ (ds : List Str) (A : WalkState),
      WalkExt A (ds.foldl
        (fun acc d =>
          if acc.seen.contains d then acc
          else addDependents graph init fuel d acc) A) := by
  intro ds
  induction ds with
  | nil => intro A; exact walkExt_refl A
  | cons d ds ih =>
    intro A
    rw [List.foldl_cons]
    refine walkExt_trans ?_ (ih _)
    by_cases h : A.seen.contains d = true
    · rw [if_pos h]
      exact walkExt_refl A
    · rw [if_neg h]
      refine hU d A ?_
      simpa [List.elem_eq_mem] using h

theorem walkExt_addDependents (graph : Graph) (init : List Str) :
    ∀ (fuel : Nat) (dir : Str) (s : WalkState), dir ∉ s.seen →
      WalkExt s (addDependents graph init fuel dir s) := by
  intro fuel
  induction fuel with
  | zero =>
    intro dir s _
    rw [addDependents_zero]
    exact walkExt_refl s
  | succ fuel ih =>
    intro dir s hdir
    have h1 : WalkExt s { s with seen := addSet dir s.seen, trace := s.trace ++ [dir] } := by
      refine ⟨subset_addSet dir s.seen, List.Subset.refl _, [dir], rfl, List.nodup_singleton dir, ?_, ?_⟩
      · intro x hx
        rcases List.mem_singleton.mp hx with rfl
        exact mem_addSet.mpr (Or.inl rfl)
      · intro x hx
        rcases List.mem_singleton.mp hx with rfl
        exact hdir
    cases hlook : graphLookup graph dir with
    | none =>
      rw [addDependents_no_edges init fuel s (Or.inl hlook)]
      exact h1
    | some dirs =>
      by_cases hne : dirs.isEmpty = true
      · rw [List.isEmpty_iff] at hne
        subst hne
        rw [addDependents_no_edges init fuel s (Or.inr hlook)]
        exact h1
      · rw [addDependents_edges init fuel s hlook (Bool.not_eq_true _ ▸ hne)]
        refine walkExt_trans ?_ (foldl_walkExt graph init fuel ih dirs _)
        by_cases hany : init.any (fun d => dirs.contains d) = true
        · rw [if_pos hany]
          refine walkExt_trans h1 ?_
          exact ⟨List.Subset.refl _, subset_addSet _ _, [], by simp, List.nodup_nil, by simp, by simp⟩
        · rw [if_neg hany]
          exact h1

theorem walkExtW_trans_ext {s t u : WalkState} (h1 : WalkExtW s t) (h2 : WalkExt t u) :
    WalkExtW s u := by
  obtain ⟨hs1, hr1, e1, ht1, hn1, hm1⟩ := h1
  obtain ⟨hs2, hr2, e2, ht2, hn2, hm2, hf2⟩ := h2
  refine ⟨hs1.trans hs2, hr1.trans hr2, e1 ++ e2, ?_, ?_, ?_⟩
  · rw [ht2, ht1, List.append_assoc]
  · rw [List.nodup_append]
    refine ⟨hn1, hn2, ?_⟩
    intro x hx1 hx2
    exact hf2 x hx2 (hm1 x hx1)
  · intro x hx
    rcases List.mem_append.mp hx with h | h
    · exact hs2 (hm1 x h)
    · exact hm2 x h

theorem walkExtW_addDependents (graph : Graph) (init : List Str) :
    ∀ (fuel : Nat) (dir : Str) (s : WalkState),
      WalkExtW s (addDependents graph init fuel dir s) := by
  intro fuel dir s
  cases fuel with
  | zero =>
    rw [addDependents_zero]
    exact ⟨List.Subset.refl _, List.Subset.refl _, [], by simp, List.nodup_nil, by simp⟩
  | succ fuel =>
    have h1 : WalkExtW s { s with seen := addSet dir s.seen, trace := s.trace ++ [dir] } := by
      refine ⟨subset_addSet dir s.seen, List.Subset.refl _, [dir], rfl,
        List.nodup_singleton dir, ?_⟩
      intro x hx
      rcases List.mem_singleton.mp hx with rfl
      exact mem_addSet.mpr (Or.inl rfl)
    cases hlook : graphLookup graph dir with
    | none =>
      rw [addDependents_no_edges init fuel s (Or.inl hlook)]
      exact h1
    | some dirs =>
      by_cases hne : dirs.isEmpty = true
      · rw [List.isEmpty_iff] at hne
        subst hne
        rw [addDependents_no_edges init fuel s (Or.inr hlook)]
        exact h1
      · rw [addDependents_edges init fuel s hlook (Bool.not_eq_true _ ▸ hne)]
        refine walkExtW_trans_ext ?_
          (foldl_walkExt graph init fuel (walkExt_addDependents graph init fuel) dirs _)
        by_cases hany : init.any (fun d => dirs.contains d) = true
        · rw [if_pos hany]
          refine ⟨subset_addSet dir s.seen, subset_addSet dir s.result, [dir], rfl,
            List.nodup_singleton dir, ?_⟩
          intro x hx
          rcases List.mem_singleton.mp hx with rfl
          exact mem_addSet.mpr (Or.inl rfl)
        · rw [if_neg hany]
          exact h1

theorem length_filter_le_of_imp {l : List Str} {p q : Str → Bool}
    (h : ∀ x ∈ l, q x = true → p x = true) :
    (l.filter q).length ≤ (l.filter p).length := by
  induction l with
  | nil => simp
  | cons x xs ih =>
    have hximp := h x (List.mem_cons_self x xs)
    have htail := ih (fun y hy => h y (List.mem_cons_of_mem x hy))
    by_cases hq : q x = true
    · rw [List.filter_cons_of_pos hq, List.filter_cons_of_pos (hximp hq)]
      simpa using htail
    · rw [List.filter_cons_of_neg (by simpa using hq)]
      by_cases hp : p x = true
      · rw [List.filter_cons_of_pos hp]
        exact htail.trans (Nat.le_succ _)
      · rw [List.filter_cons_of_neg (by simpa using hp)]
        exact htail

theorem length_filter_lt_of_mem {l : List Str} {p q : Str → Bool} {k : Str}
    (hk : k ∈ l) (hpk : p k = true) (hqk : q k = false)
    (h : ∀ x ∈ l, q x = true → p x = true) :
    (l.filter q).length < (l.filter p).length := by
  induction l with
  | nil => cases hk
  | cons x xs ih =>
    have htail := fun y hy => h y (List.mem_cons_of_mem x hy)
    rcases List.mem_cons.mp hk with rfl | hk'
    · rw [List.filter_cons_of_pos hpk, List.filter_cons_of_neg (by simp [hqk])]
      exact Nat.lt_succ_of_le (length_filter_le_of_imp htail)
    · have hstep := ih hk' htail
      by_cases hq : q x = true
      · rw [List.filter_cons_of_pos hq, List.filter_cons_of_pos (h x (List.mem_cons_self x xs) hq)]
        simpa using hstep
      · rw [List.filter_cons_of_neg (by simpa using hq)]
        by_cases hp : p x = true
        · rw [List.filter_cons_of_pos hp]
          exact hstep.trans (Nat.lt_succ_self _)
        · rw [List.filter_cons_of_neg (by simpa using hp)]
          exact hstep

theorem unseenKeys_le_of_subset {graph : Graph} {s s' : List Str} (h : s ⊆ s') :
    unseenKeys graph s' ≤ unseenKeys graph s := by
  unfold unseenKeys
  refine length_filter_le_of_imp ?_
  intro x _ hx
  simp only [Bool.not_eq_true', List.elem_eq_mem, decide_eq_false_iff_not] at hx ⊢
  intro hmem
  exact hx (h hmem)

theorem mem_keys_of_graphLookup {graph : Graph} {dir : Str} {dirs : List Str}
    (h : graphLookup graph dir = some dirs) :
    dir ∈ (graph.map (fun p => p.1)).dedup := by
  unfold graphLookup at h
  cases hf : graph.find? (fun p => p.1 = dir) with
  | none => rw [hf] at h; cases h
  | some p =>
    have hmem := List.mem_of_find?_eq_some hf
    have hpred := List.find?_some hf
    simp only [decide_eq_true_eq] at hpred
    rw [List.mem_dedup]
    rw [← hpred]
    exact List.mem_map_of_mem _ hmem

theorem unseenKeys_addSet_lt {graph : Graph} {dir : Str} {seen : List Str}
    (hkey : dir ∈ (graph.map (fun p => p.1)).dedup) (hdir : dir ∉ seen) :
    unseenKeys graph (addSet dir seen) < unseenKeys graph seen := by
  unfold unseenKeys
  refine length_filter_lt_of_mem hkey ?_ ?_ ?_
  · simp [List.elem_eq_mem, hdir]
  · simp [List.elem_eq_mem, mem_addSet]
  · intro x _ hx
    simp only [Bool.not_eq_true', List.elem_eq_mem, decide_eq_false_iff_not] at hx ⊢
    intro hmem
    exact hx (subset_addSet dir seen hmem)

theorem unseenKeys_lt_of_mem_seen {graph : Graph} {dir : Str} {seen : List Str}
    (hkey : dir ∈ (graph.map (fun p => p.1)).dedup) (hdir : dir ∈ seen) :
    unseenKeys graph seen < graph.length := by
  have h1 : unseenKeys graph seen < (graph.map (fun p => p.1)).dedup.length := by
    unfold unseenKeys
    have := @length_filter_lt_of_mem ((graph.map (fun p => p.1)).dedup)
      (fun _ => true) (fun k => !seen.contains k) dir hkey rfl
      (by simp [List.elem_eq_mem, hdir]) (fun x _ _ => rfl)
    simpa using this
  have h2 : (graph.map (fun p => p.1)).dedup.length ≤ graph.length := by
    have := (List.dedup_sublist (graph.map (fun p => p.1))).length_le
    simpa using this
  exact h1.trans_le h2

theorem foldl_fuel_eq (graph : Graph) (init : List Str) (fuel : Nat)
    (hIH : ∀ (dir : Str) (A : WalkState), dir ∉ A.seen →
      unseenKeys graph A.seen < fuel →
      addDependents graph init (fuel + 1) dir A = addDependents graph init fuel dir A) :
    ∀ (ds : List Str) (A : WalkState), unseenKeys graph A.seen < fuel →
      ds.foldl (fun acc d => if acc.seen.contains d then acc
        else addDependents graph init (fuel + 1) d acc) A =
      ds.foldl (fun acc d => if acc.seen.contains d then acc
        else addDependents graph init fuel d acc) A := by
  intro ds
  induction ds with
  | nil => intro A _; rfl
  | cons d ds ih =>
    intro A hA
    rw [List.foldl_cons, List.foldl_cons]
    by_cases hcont : A.seen.contains d = true
    · rw [if_pos hcont, if_pos hcont]
      exact ih A hA
    · rw [if_neg hcont, if_neg hcont]
      have hd : d ∉ A.seen := by simpa [List.elem_eq_mem] using hcont
      rw [hIH d A hd hA]
      refine ih _ ?_
      have hsub := (walkExtW_addDependents graph init fuel d A).1
      exact (unseenKeys_le_of_subset hsub).trans_lt hA

theorem addDependents_fuel_unseen (graph : Graph) (init : List Str) :
    ∀ (fuel : Nat) (dir : Str) (s : WalkState), dir ∉ s.seen →
      unseenKeys graph s.seen < fuel →
      addDependents graph init (fuel + 1) dir s = addDependents graph init fuel dir s := by
  intro fuel
  induction fuel with
  | zero =>
    intro dir s _ h
    exact absurd h (Nat.not_lt_zero _)
  | succ fuel ih =>
    intro dir s hdir hbound
    cases hlook : graphLookup graph dir with
    | none =>
      rw [addDependents_no_edges init (fuel + 1) s (Or.inl hlook),
        addDependents_no_edges init fuel s (Or.inl hlook)]
    | some dirs =>
      by_cases hne : dirs.isEmpty = true
      · rw [List.isEmpty_iff] at hne
        subst hne
        rw [addDependents_no_edges init (fuel + 1) s (Or.inr hlook),
          addDependents_no_edges init fuel s (Or.inr hlook)]
      · have hne' : dirs.isEmpty = false := Bool.not_eq_true _ ▸ hne
        rw [addDependents_edges init (fuel + 1) s hlook hne',
          addDependents_edges init fuel s hlook hne']
        have hkey := mem_keys_of_graphLookup hlook
        have hlt : unseenKeys graph (addSet dir s.seen) < fuel :=
          (unseenKeys_addSet_lt hkey hdir).trans_le (Nat.lt_succ_iff.mp hbound)
        by_cases hany : init.any (fun d => dirs.contains d) = true
        · rw [if_pos hany]
          exact foldl_fuel_eq graph init fuel ih dirs _ hlt
        · rw [if_neg hany]
          exact foldl_fuel_eq graph init fuel ih dirs _ hlt

theorem addDependents_fuel_high (graph : Graph) (init : List Str) :
    ∀ (fuel : Nat), graph.length + 1 ≤ fuel → ∀ (dir : Str) (s : WalkState),
      addDependents graph init (fuel + 1) dir s = addDependents graph init fuel dir s := by
  intro fuel hfuel dir s
  cases fuel with
  | zero => exact absurd hfuel (by simp)
  | succ f =>
    have hgf : graph.length ≤ f := Nat.succ_le_succ_iff.mp hfuel
    cases hlook : graphLookup graph dir with
    | none =>
      rw [addDependents_no_edges init (f + 1) s (Or.inl hlook),
        addDependents_no_edges init f s (Or.inl hlook)]
    | some dirs =>
      by_cases hne : dirs.isEmpty = true
      · rw [List.isEmpty_iff] at hne
        subst hne
        rw [addDependents_no_edges init (f + 1) s (Or.inr hlook),
          addDependents_no_edges init f s (Or.inr hlook)]
      · have hne' : dirs.isEmpty = false := Bool.not_eq_true _ ▸ hne
        rw [addDependents_edges init (f + 1) s hlook hne',
          addDependents_edges init f s hlook hne']
        have hkey := mem_keys_of_graphLookup hlook
        have hseen : dir ∈ addSet dir s.seen := mem_addSet.mpr (Or.inl rfl)
        have hlt : unseenKeys graph (addSet dir s.seen) < f :=
          (unseenKeys_lt_of_mem_seen hkey hseen).trans_le hgf
        by_cases hany : init.any (fun d => dirs.contains d) = true
        · rw [if_pos hany]
          exact foldl_fuel_eq graph init f (addDependents_fuel_unseen graph init f) dirs _ hlt
        · rw [if_neg hany]
          exact foldl_fuel_eq graph init f (addDependents_fuel_unseen graph init f) dirs _ hlt

theorem addDependents_fuel_stable (graph : Graph) (init : List Str) (dir : Str)
    (s : WalkState) :
    ∀ (fuel : Nat), graph.length + 1 ≤ fuel →
      addDependents graph init fuel dir s =
        addDependents graph init (graph.length + 1) dir s := by
  intro fuel hfuel
  induction fuel, hfuel using Nat.le_induction with
  | base => rfl
  | succ n hmn ih =>
    rw [addDependents_fuel_high graph init n hmn dir s]
    exact ih

/-- C6: the dependents walk terminates: entered on a directory with no
outgoing edge set (or an empty one) it returns after marking the directory
seen; every single walk enters each directory at most once (its trace
extension is duplicate-free), which is what the visited-set guard
enforces — with or without cycles in the graph; and the walk is past its
fixpoint at fuel `graph.length + 1`, the amount the embedded scope
resolution supplies, so the bounded recursion computes the same result as
the unbounded JS recursion for every graph, cyclic ones included. -/
theorem dependents_walk_termination :
    (∀ (graph : Graph) (init : List Str) (fuel : Nat) (dir : Str) (s : WalkState),
      graphLookup graph dir = none ∨ graphLookup graph dir = some [] →
        addDependents graph init (fuel + 1) dir s =
          { s with seen := addSet dir s.seen, trace := s.trace ++ [dir] }) ∧
    (∀ (graph : Graph) (init : List Str) (fuel : Nat) (dir : Str) (s : WalkState),
      ∃ ext, (addDependents graph init fuel dir s).trace = s.trace ++ ext ∧ ext.Nodup) ∧
    (∀ (graph : Graph) (init : List Str) (dir : Str) (s : WalkState) (fuel : Nat),
      graph.length + 1 ≤ fuel →
        addDependents graph init fuel dir s =
          addDependents graph init (graph.length + 1) dir s) := by
  refine ⟨?_, ?_, ?_⟩
  · intro graph init fuel dir s h
    exact addDependents_no_edges init fuel s h
  · intro graph init fuel dir s
    obtain ⟨_, _, ext, ht, hn, _⟩ := walkExtW_addDependents graph init fuel dir s
    exact ⟨ext, ht, hn⟩
  · intro graph init dir s fuel h
    exact addDependents_fuel_stable graph init dir s fuel h

/-! ## Scope claims C1 and C2 -/

theorem determineIncludedWorkspaces_ok {st : ChiefState} {w : Str}
    (harg : st.workspaceArg = some w) (hex : st.dirExists w = true) :
    determineIncludedWorkspaces st =
      .ok (((wsNames st).mergeSort byPathDepthLe).map
        (fun name => { name := name,
                       ancestors := ancestorsOf st.availableWorkspaceNames name })) := by
  simp [determineIncludedWorkspaces, harg, hex]

theorem map_name_of_map_mk (l : List Str) (anc : Str → List Str) :
    (l.map (fun name => ({ name := name, ancestors := anc name } : Workspace))).map
      Workspace.name = l := by
  induction l with
  | nil => rfl
  | cons x xs ih =>
    rw [List.map_cons, List.map_cons, ih]

/-- C2: with a workspace selector and strict mode on, the included
workspace list contains exactly one workspace — the selected one — no
matter what the package graph holds (it is not even consulted). -/
theorem strict_scope_single_workspace (st : ChiefState) (w : Str)
    (harg : st.workspaceArg = some w) (hstrict : st.isStrict = true)
    (hex : st.dirExists w = true) :
    ∃ l, determineIncludedWorkspaces st = .ok l ∧ l.map Workspace.name = [w] := by
  refine ⟨_, determineIncludedWorkspaces_ok harg hex, ?_⟩
  rw [map_name_of_map_mk]
  have hws : wsNames st = [w] := by
    simp [wsNames, harg, hstrict, addSet]
  rw [hws, List.mergeSort_singleton]

theorem strict_scope_single_workspace_witness :
    ∃ l, determineIncludedWorkspaces sampleChiefStateStrict = .ok l ∧
      l.map Workspace.name = [str "packages/a"] :=
  strict_scope_single_workspace sampleChiefStateStrict (str "packages/a") rfl rfl rfl

theorem mem_foldl_addSet_image {x : Str} (f : Str → Str) (l init : List Str) :
    x ∈ l.foldl (fun acc d => addSet (f d) acc) init ↔ x ∈ init ∨ x ∈ l.map f := by
  induction l generalizing init with
  | nil => simp
  | cons d ds ih =>
    rw [List.foldl_cons, ih, mem_addSet, List.map_cons, List.mem_cons]
    tauto

theorem foldl_addDependents_result_mono (graph : Graph) (init : List Str) (F : Nat) :
    ∀ (ds : List Str) (A : WalkState),
      A.result ⊆ (ds.foldl (fun acc dir => addDependents graph init F dir acc) A).result := by
  intro ds
  induction ds with
  | nil => intro A; exact List.Subset.refl _
  | cons d ds ih =>
    intro A
    rw [List.foldl_cons]
    exact ((walkExtW_addDependents graph init F d A).2.1).trans (ih _)

theorem subset_getAncestorsStep (w : Str) (acc : List Str) (b : Str) :
    acc ⊆ getAncestorsStep w acc b := by
  unfold getAncestorsStep
  split_ifs
  exacts [List.Subset.refl _, List.subset_append_left _ _, List.Subset.refl _]

theorem mem_foldl_getAncestorsStep (w : Str) :
    ∀ (l acc : List Str) (a : Str),
      a ∈ acc ∨ (a ∈ l ∧ w ≠ a ∧
        (a = ROOT_WORKSPACE_NAME ∨ (a ++ ['/']).isPrefixOf w = true)) →
      a ∈ l.foldl (getAncestorsStep w) acc := by
  intro l
  induction l with
  | nil =>
    intro acc a h
    rcases h with h | ⟨h, _, _⟩
    · exact h
    · cases h
  | cons b l ih =>
    intro acc a h
    rw [List.foldl_cons]
    rcases h with h | ⟨hmem, hne, hcond⟩
    · exact ih _ _ (Or.inl (subset_getAncestorsStep w acc b h))
    · rcases List.mem_cons.mp hmem with rfl | hmem'
      · refine ih _ _ (Or.inl ?_)
        unfold getAncestorsStep
        rw [if_neg hne, if_pos]
        · exact List.mem_append_right _ (List.mem_singleton_self a)
        · rcases hcond with h | h
          · simp [h]
          · simp [h]
      · exact ih _ _ (Or.inr ⟨hmem', hne, hcond⟩)

theorem mem_ancestorsOf {avail : List Str} {w a : Str} (ha : a ∈ avail) (hne : w ≠ a)
    (hcond : a = ROOT_WORKSPACE_NAME ∨ (a ++ ['/']).isPrefixOf w = true) :
    a ∈ ancestorsOf avail w :=
  mem_foldl_getAncestorsStep w avail [] a (Or.inr ⟨ha, hne, hcond⟩)

theorem mem_wsNames_normal {st : ChiefState} {w : Str} {g : Graph}
    (harg : st.workspaceArg = some w) (hstrict : st.isStrict = false)
    (hgraph : st.packageGraph = some g)
    {a : Str} (ha : a ∈ ancestorsOf st.availableWorkspaceNames w ++ [w])
    (hane : a ≠ []) :
    a ∈ wsNames st := by
  simp only [wsNames, harg, hstrict, hgraph]
  rw [mem_foldl_addSet_image]
  right
  refine List.mem_map.mpr ⟨joinPath st.cwd a, ?_, wsName_of st.cwd a hane⟩
  refine foldl_addDependents_result_mono g _ _ st.availableWorkspaceDirs _ ?_
  rw [mem_foldl_addSet]
  right
  exact List.mem_map_of_mem _ ha

/-- C1: with a workspace selector and strict mode off (and the package
graph built, as it always is before scope resolution), the included
workspace list contains the selected workspace itself and every available
workspace name that is the root or a path prefix of the selector — on top
of whatever the dependents walk adds. The two non-emptiness side conditions
rule out the empty string, which is not a workspace name (the CLI selector
is normalized to a non-empty path first). -/
theorem normal_scope_superset (st : ChiefState) (w : Str) (g : Graph)
    (harg : st.workspaceArg = some w) (hstrict : st.isStrict = false)
    (hgraph : st.packageGraph = some g) (hex : st.dirExists w = true)
    (hw : w ≠ []) (hnames : [] ∉ st.availableWorkspaceNames) :
    ∃ l, determineIncludedWorkspaces st = .ok l ∧
      w ∈ l.map Workspace.name ∧
      ∀ a ∈ st.availableWorkspaceNames, a ≠ w →
        a = ROOT_WORKSPACE_NAME ∨ (a ++ ['/']).isPrefixOf w = true →
        a ∈ l.map Workspace.name := by
  refine ⟨_, determineIncludedWorkspaces_ok harg hex, ?_, ?_⟩
  · rw [map_name_of_map_mk, List.mem_mergeSort]
    exact mem_wsNames_normal harg hstrict hgraph
      (List.mem_append_right _ (List.mem_singleton_self w)) hw
  · intro a hmem hne hcond
    rw [map_name_of_map_mk, List.mem_mergeSort]
    have hanne : a ≠ [] := fun h => hnames (h ▸ hmem)
    exact mem_wsNames_normal harg hstrict hgraph
      (List.mem_append_left _ (mem_ancestorsOf hmem (Ne.symm hne) hcond)) hanne

theorem normal_scope_superset_witness :
    ∃ l, determineIncludedWorkspaces sampleChiefState = .ok l ∧
      str "packages/a" ∈ l.map Workspace.name ∧
      ∀ a ∈ sampleChiefState.availableWorkspaceNames, a ≠ str "packages/a" →
        a = ROOT_WORKSPACE_NAME ∨ (a ++ ['/']).isPrefixOf (str "packages/a") = true →
        a ∈ l.map Workspace.name :=
  normal_scope_superset sampleChiefState (str "packages/a") [] rfl rfl rfl rfl
    (by decide) (by decide)

example : splitTags [str "a,-b", str "c"] = ([str "a", str "c"], [str "b"]) := by decide
example : splitTags [str "v2beta"] = ([str "v"], []) := by decide
example : splitTags [str "foo-bar"] = ([str "foo"], []) := by decide
example : splitTags [str "123", str "-", str ""] = ([], []) := by decide
example : shouldIgnore [str "@internal"] ([str "internal"], []) = false := by decide
example : shouldIgnore [str "@internal"] ([], [str "internal"]) = true := by decide

example :
    getIncludedIssueTypes ⟨[str "dependencies"], [str "devDependencies"], false, false, false⟩ {} =
      .ok (ISSUE_TYPES.map (fun g =>
        (g, ([str "dependencies", str "optionalPeerDependencies"] : List Str).contains g))) := by
  rfl

end Knip
